import Mathlib

/-!
Verification of the Github_Analyzer service (`app.py`).

The model below is a shallow embedding of the program's core logic:

* Python strings are modelled as `List Char` (`Str`); `str.count` becomes
  `countSub`, substring tests (`sub in s`) become `List.IsInfix`, and
  `str.lower()` becomes `List.map Char.toLower` (the program only ever
  lowercases ASCII source text).
* The cloned repository tree is modelled by the inductive `Entry`
  (named files with decoded text content, and named directories);
  `os.walk` with the in-place pruning performed by `load_files` is the
  function `walk`, which yields, in top-down depth-first order, the
  relative directory components together with the plain files of each
  visited directory.
* The external chat-completion call of `summarize_repo`, together with the
  fence-stripping and `json.loads` of its reply, is modelled by an oracle
  `llm : Str → Option Report` mapping the prompt text to the parsed reply
  (`none` when the call raises or the reply is not valid JSON); everything
  on this side of that call is embedded faithfully, including the prompt
  text itself (`buildPrompt`).
* The `/analyze` route is modelled from the point where the repository
  clone has succeeded (`analyze`): URL validation and the clone itself are
  external I/O preceding everything the claims speak about.
-/

namespace GithubAnalyzer

set_option maxRecDepth 8192

/-- Python strings, as lists of characters. -/
abbrev Str := List Char

/-! ### Python `str.count` -/

/-- Fueled version of Python's `str.count` scan: left to right, a match is
counted and the scan resumes after it (non-overlapping occurrences).  The
fuel is only there to make the recursion structural; `countSub` instantiates
it with the length of the scanned string, which always suffices. -/
def countSubFuel (pat : Str) : Nat → Str → Nat
  | 0, _ => 0
  | _ + 1, [] => 0
  | fuel + 1, c :: rest =>
    if pat <+: (c :: rest) then
      1 + countSubFuel pat fuel (rest.drop (pat.length - 1))
    else
      countSubFuel pat fuel rest

/-- Python `text.count(sub)` for a non-empty `sub`: the number of
non-overlapping occurrences of `pat` in `s`, scanning left to right. -/
def countSub (pat s : Str) : Nat := countSubFuel pat s.length s

/-! ### Occurrences of a pattern, by position (specification side) -/

/-- The number of positions of `s` at which `pat` occurs: the count of
indices `i` of `s` such that `pat` matches `s` starting at `i`.  This is the
specification-side reading of "the total number of occurrences of the
literal substring"; `countSub_eq_occCount` shows the program's scan agrees
with it for patterns that cannot overlap themselves. -/
def occCount (pat s : Str) : Nat :=
  (List.range s.length).countP fun i => decide (pat <+: s.drop i)

/-- A pattern that cannot overlap itself: no proper non-empty tail of `pat`
matches at the start of `pat`.  All three severity tag markers satisfy this
(each one starts with `[` and contains no second `[`). -/
def noSelfOverlap (pat : Str) : Prop :=
  ∀ k < pat.length, 0 < k → ¬ pat.drop k <+: pat

instance (pat : Str) : Decidable (noSelfOverlap pat) := by
  unfold noSelfOverlap
  infer_instance

/-! ### Scoring logic (`extract_severity_counts`, `calculate_health_score`) -/

/-- The literal tag marker `"[HIGH]"`. -/
def tagHIGH : Str := "[HIGH]".data

/-- The literal tag marker `"[MEDIUM]"`. -/
def tagMEDIUM : Str := "[MEDIUM]".data

/-- The literal tag marker `"[LOW]"`. -/
def tagLOW : Str := "[LOW]".data

/-- The three-entry severity mapping `{"HIGH": _, "MEDIUM": _, "LOW": _}`:
its three keys are the three fields of this structure, so all three are
always present. -/
structure SeverityCounts where
  HIGH : Nat
  MEDIUM : Nat
  LOW : Nat
deriving DecidableEq

/-- `extract_severity_counts(analyses)` from `app.py`: starting from the
zero-initialised mapping, add `text.count("[LEVEL]")` for each level, for
each text of `analyses`. -/
def extract_severity_counts (analyses : List Str) : SeverityCounts :=
  analyses.foldl
    (fun counts text =>
      { HIGH := counts.HIGH + countSub tagHIGH text
        MEDIUM := counts.MEDIUM + countSub tagMEDIUM text
        LOW := counts.LOW + countSub tagLOW text })
    ⟨0, 0, 0⟩

/-- `calculate_health_score(counts)` from `app.py`: start from 100, subtract
15 per HIGH, 7 per MEDIUM, 3 per LOW, and clamp below at 0. -/
def calculate_health_score (counts : SeverityCounts) : Int :=
  max (100 - (counts.HIGH : Int) * 15 - (counts.MEDIUM : Int) * 7 - (counts.LOW : Int) * 3) 0

/-! ### Configuration constants of `app.py` -/

def MAX_FILES : Nat := 10

def MAX_FILE_CHARS : Nat := 8000

def ALLOWED_EXT : List String :=
  [".py", ".js", ".jsx", ".ts", ".tsx", ".html", ".css", ".java", ".cpp"]

def IGNORED_DIRS : List String :=
  [".git", "node_modules", "venv", "__pycache__", "dist", "build"]

/-- The extension `os.path.splitext(file)[1]` of a bare file name (no path
separators): the suffix starting at the last dot, except that a run of dots
at the very start of the name never opens an extension. -/
def splitext_ext (name : String) : String :=
  let rest := name.data.dropWhile (fun c => c = '.')
  if '.' ∈ rest then
    String.mk ('.' :: (rest.reverse.takeWhile (fun c => c ≠ '.')).reverse)
  else ""

/-! ### The cloned repository tree and the file loader (`load_files`) -/

/-- One entry of the cloned repository tree: a plain file with its decoded
text content, or a directory with its entries.  Read errors are external
I/O: a file whose read raises is simply absent from the model, matching the
silent `except: pass` of `load_files`. -/
inductive Entry where
  | file (name : String) (content : Str)
  | dir (name : String) (entries : List Entry)

def Entry.name : Entry → String
  | .file n _ => n
  | .dir n _ => n

def Entry.isDir : Entry → Bool
  | .file _ _ => false
  | .dir _ _ => true

/-- The plain files of one directory listing, as `os.walk` reports them in
its `files` component. -/
def fileEntries : List Entry → List (String × Str)
  | [] => []
  | .file n c :: es => (n, c) :: fileEntries es
  | .dir _ _ :: es => fileEntries es

/-- The subdirectories of one directory listing (the `dirs` component of
`os.walk`). -/
def dirEntries : List Entry → List Entry :=
  fun es => es.filter Entry.isDir

/-- `os.walk(local_path)` as `load_files` drives it: top-down, and at every
directory the in-place pruning `dirs[:] = [d for d in dirs if d not in
IGNORED_DIRS]` keeps the walk out of ignored subtrees.  Each element is the
pair of the visited directory's path components relative to the root and its
plain files. -/
def walk : List String → Entry → List (List String × List (String × Str))
  | _, .file _ _ => []
  | rel, .dir _ entries =>
    (rel, fileEntries entries) ::
      (((dirEntries entries).filter fun d => !IGNORED_DIRS.contains d.name).attach.flatMap
        fun d => walk (rel ++ [d.1.name]) d.1)
termination_by _ e => sizeOf e
decreasing_by
  simp_wf
  have h1 : d.1 ∈ dirEntries entries := List.mem_of_mem_filter d.2
  have h2 : d.1 ∈ entries := List.mem_of_mem_filter h1
  have h3 := List.sizeOf_lt_of_mem h2
  omega

/-- One sampled file as `load_files` stores it: the path relative to the
clone root (kept as its components; the source joins them with the path
separator) and the file's text. -/
structure SourceFile where
  path : List String
  content : Str
deriving DecidableEq

/-- The inclusion test of `load_files`: allow-listed extension (from
`os.path.splitext`) and `300 < len(content) < MAX_FILE_CHARS`. -/
def keepFile (f : String × Str) : Prop :=
  splitext_ext f.1 ∈ ALLOWED_EXT ∧ 300 < f.2.length ∧ f.2.length < MAX_FILE_CHARS

instance (f : String × Str) : Decidable (keepFile f) := by
  unfold keepFile
  infer_instance

/-- The body of the `for file in files` loop of `load_files` over one
directory's files: append each file that passes `keepFile`, with its content
truncated to `MAX_FILE_CHARS` characters. -/
def collectFiles (rel : List String) (files : List (String × Str))
    (acc : List SourceFile) : List SourceFile :=
  files.foldl
    (fun a f =>
      if keepFile f then a ++ [⟨rel ++ [f.1], f.2.take MAX_FILE_CHARS⟩] else a)
    acc

/-- The `for root, dirs, files in os.walk(...)` loop of `load_files`, with
the early `break` once `MAX_FILES` files have been collected. -/
def loadLoop : List (List String × List (String × Str)) → List SourceFile → List SourceFile
  | [], acc => acc
  | item :: rest, acc =>
    let acc1 := collectFiles item.1 item.2 acc
    if MAX_FILES ≤ acc1.length then acc1 else loadLoop rest acc1

/-- `load_files(local_path)` from `app.py`: walk the tree, collect passing
files directory by directory, stop once `MAX_FILES` are collected, and
return at most `MAX_FILES` of them. -/
def load_files (root : Entry) : List SourceFile :=
  (loadLoop (walk [] root) []).take MAX_FILES

/-- Modelled from the spec's words, for comparison with `load_files`: the
same sampler but storing each included file's content as read, with no
truncation ("truncation is effectively a no-op safeguard, not a way to
admit longer files"). -/
def collectFilesAsRead (rel : List String) (files : List (String × Str))
    (acc : List SourceFile) : List SourceFile :=
  files.foldl
    (fun a f => if keepFile f then a ++ [⟨rel ++ [f.1], f.2⟩] else a)
    acc

/-- The walk loop of the untruncated sampler `load_files_as_read`. -/
def loadLoopAsRead : List (List String × List (String × Str)) → List SourceFile → List SourceFile
  | [], acc => acc
  | item :: rest, acc =>
    let acc1 := collectFilesAsRead item.1 item.2 acc
    if MAX_FILES ≤ acc1.length then acc1 else loadLoopAsRead rest acc1

/-- The sampler with the truncation step removed (specification side). -/
def load_files_as_read (root : Entry) : List SourceFile :=
  (loadLoopAsRead (walk [] root) []).take MAX_FILES

/-! ### The rule-based scanner (`analyze_file`) -/

/-- The HIGH finding text of `analyze_file`. -/
def msgHIGH : Str :=
  "[HIGH] Possible hardcoded API key detected → Move secrets to environment variables".data

/-- The MEDIUM finding text of `analyze_file`. -/
def msgMEDIUM : Str :=
  "[MEDIUM] Bare except clause used → Catch specific exceptions".data

/-- The LOW finding text of `analyze_file`. -/
def msgLOW : Str :=
  "[LOW] Debug print statements found → Replace with logging".data

/-- The placeholder finding `analyze_file` emits when no rule matched. -/
def msgNONE : Str := "[LOW] No major issues detected".data

/-- The `findings` list `analyze_file` builds for one file's content: the
three independent substring rules (the first one on the lowercased text),
then the placeholder if none fired.  Python's `str.lower()` is modelled by
`Char.toLower` character by character (the scanned trigger strings are
ASCII). -/
def scanFindings (content : Str) : List Str :=
  let f1 : List Str := if "api_key".data <:+: content.map Char.toLower then [msgHIGH] else []
  let f2 : List Str := f1 ++ (if "except:".data <:+: content then [msgMEDIUM] else [])
  let f3 : List Str := f2 ++ (if "print(".data <:+: content then [msgLOW] else [])
  if f3 = [] then [msgNONE] else f3

/-- Python `"\n".join`. -/
def joinLines : List Str → Str
  | [] => []
  | [x] => x
  | x :: xs => x ++ '\n' :: joinLines xs

/-- `os.path.relpath(path, local_path)` of a sampled file: its stored
components joined by the path separator. -/
def pathStr (f : SourceFile) : Str := (String.intercalate "/" f.path).data

/-- `analyze_file(file)` from `app.py`: the file's relative path, a colon
and a line break, then the findings joined by line breaks. -/
def analyze_file (file : SourceFile) : Str :=
  pathStr file ++ ':' :: '\n' :: joinLines (scanFindings file.content)

/-! ### The report synthesizer (`summarize_repo`) and the handler -/

/-- The parsed JSON reply `{score, summary, roadmap, details}` the handler
returns as the final report. -/
structure Report where
  score : Int
  summary : Str
  roadmap : List Str
  details : List Str
deriving DecidableEq

/-- The prompt text `summarize_repo` builds (the f-string of `app.py`, with
the score, the counts and the findings interpolated). -/
def buildPrompt (file_results : List Str) (score : Int) (counts : SeverityCounts) : Str :=
  ("\nYou are generating a final audit report.\n\nFACTS (DO NOT CHANGE):\n- Health score: "
    ++ toString score
    ++ "\n- Issue counts:\n  - HIGH: " ++ toString counts.HIGH
    ++ "\n  - MEDIUM: " ++ toString counts.MEDIUM
    ++ "\n  - LOW: " ++ toString counts.LOW
    ++ "\n\nVERIFIED FINDINGS:\n").data
  ++ joinLines file_results
  ++ ("\n\nTASK:\n1. Write a 3-sentence executive summary that reflects the score and severity\n2. Create a prioritized improvement roadmap:\n   - Fix HIGH issues first\n   - Then MEDIUM\n   - Then LOW\n\nRULES:\n- Do NOT introduce new issues\n- Every roadmap item must map to findings above\n\nOUTPUT JSON ONLY:\n\x7b\n  \"score\": "
    ++ toString score
    ++ ",\n  \"summary\": \"\",\n  \"roadmap\": [\"...\"],\n  \"details\": [\"...\"]\n\x7d\n").data

/-- `summarize_repo` from `app.py`.  The external chat-completion call, the
code-fence stripping and the `json.loads` of the reply are one external
step, modelled by the oracle `llm`: it maps the prompt text to the parsed
reply, or to `none` when the call raises or the reply is not valid JSON
(both propagate as exceptions to the handler).  Everything `summarize_repo`
itself does with the computed score and counts is to interpolate them into
the prompt; the parsed reply is returned unchanged. -/
def summarize_repo (llm : Str → Option Report) (file_results : List Str)
    (score : Int) (counts : SeverityCounts) : Option Report :=
  llm (buildPrompt file_results score counts)

/-- The handler's possible responses: `badRequest e` is a 400 with body
`{"error": e}`, `serverError` the generic 500 with error text and trace
(the texts are diagnostic output of the external exception, left opaque),
and `ok r` the 200 carrying the final report. -/
inductive HandlerResult where
  | badRequest (error : String)
  | serverError
  | ok (report : Report)
deriving DecidableEq

/-- The `/analyze` route of `app.py` from the point where the repository
clone has succeeded, producing the tree `root` (URL validation and the git
clone precede everything modelled here; the per-file `time.sleep` has no
effect on the data flow).  Sample the files; with none, answer 400; else
scan every file, aggregate, score, and hand the facts to `summarize_repo`,
whose parsed reply is returned as is (a raised exception becomes the 500). -/
def analyze (llm : Str → Option Report) (root : Entry) : HandlerResult :=
  let files := load_files root
  if files = [] then .badRequest "No readable source files found"
  else
    let file_results := files.map analyze_file
    let severity_counts := extract_severity_counts file_results
    let score := calculate_health_score severity_counts
    match summarize_repo llm file_results score severity_counts with
    | some report => .ok report
    | none => .serverError


/-! ## Properties of the scan -/

theorem countSubFuel_nil (pat : Str) (fuel : Nat) : countSubFuel pat fuel [] = 0 := by
  cases fuel <;> rfl

theorem countSubFuel_congr (pat : Str) :
    ∀ (f1 : Nat) (s : Str) (f2 : Nat), s.length ≤ f1 → s.length ≤ f2 →
      countSubFuel pat f1 s = countSubFuel pat f2 s := by
  intro f1
  induction f1 with
  | zero =>
    intro s f2 h1 _
    have hs : s = [] := List.eq_nil_of_length_eq_zero (Nat.le_zero.mp h1)
    subst hs
    simp [countSubFuel_nil]
  | succ n ih =>
    intro s f2 h1 h2
    cases s with
    | nil => simp [countSubFuel_nil]
    | cons c rest =>
      cases f2 with
      | zero => exact absurd h2 (by simp)
      | succ m =>
        have hrest : rest.length ≤ n := by simpa using h1
        have hrest2 : rest.length ≤ m := by simpa using h2
        by_cases hp : pat <+: (c :: rest)
        · have hd : (rest.drop (pat.length - 1)).length ≤ rest.length := by
            simp [List.length_drop]
          simp only [countSubFuel, if_pos hp]
          rw [ih (rest.drop (pat.length - 1)) m (le_trans hd hrest) (le_trans hd hrest2)]
        · simp only [countSubFuel, if_neg hp]
          exact ih rest m hrest hrest2

theorem countSub_nil (pat : Str) : countSub pat [] = 0 := rfl

theorem countSub_cons (pat : Str) (c : Char) (rest : Str) :
    countSub pat (c :: rest) =
      if pat <+: (c :: rest) then 1 + countSub pat (rest.drop (pat.length - 1))
      else countSub pat rest := by
  unfold countSub
  by_cases hp : pat <+: (c :: rest)
  · simp only [List.length_cons, countSubFuel, if_pos hp]
    congr 1
    exact countSubFuel_congr pat rest.length (rest.drop (pat.length - 1))
      (rest.drop (pat.length - 1)).length (by simp [List.length_drop]) le_rfl
  · simp only [List.length_cons, countSubFuel, if_neg hp]

theorem occCount_nil (pat : Str) : occCount pat [] = 0 := rfl

theorem occCount_cons (pat : Str) (c : Char) (rest : Str) :
    occCount pat (c :: rest) =
      (if pat <+: (c :: rest) then 1 else 0) + occCount pat rest := by
  unfold occCount
  rw [List.length_cons, List.range_succ_eq_map, List.countP_cons, List.countP_map]
  have h1 : ((fun i => decide (pat <+: (c :: rest).drop i)) ∘ Nat.succ) =
      fun i => decide (pat <+: rest.drop i) := by
    funext i
    simp [Function.comp, List.drop_succ_cons]
  rw [h1]
  by_cases hp : pat <+: (c :: rest) <;> simp [hp, Nat.add_comm]

theorem occCount_drop (pat : Str) (hne : pat ≠ []) (s : Str) :
    ∀ k : Nat, occCount pat s =
      ((List.range k).countP fun i => decide (pat <+: s.drop i)) + occCount pat (s.drop k) := by
  intro k
  induction k with
  | zero => simp [occCount]
  | succ k ih =>
    rw [List.range_succ, List.countP_append]
    cases hd : s.drop k with
    | nil =>
      have hd1 : s.drop (k + 1) = [] := by
        have h2 : s.drop (k + 1) = (s.drop k).drop 1 := by
          rw [List.drop_drop]
        rw [h2, hd]
        rfl
      have hnp : ¬ pat <+: s.drop k := by
        rw [hd]
        intro h
        exact hne (List.eq_nil_of_length_eq_zero
          (Nat.le_zero.mp (by simpa using h.length_le)))
      have hsingle : List.countP (fun i => decide (pat <+: s.drop i)) [k] = 0 := by
        rw [List.countP_cons]
        simp [hnp]
      rw [ih, hsingle, hd, hd1]
      simp
    | cons c t =>
      have hd1 : s.drop (k + 1) = t := by
        have h2 : s.drop (k + 1) = (s.drop k).drop 1 := by
          rw [List.drop_drop]
        rw [h2, hd]
        rfl
      have hsingle : List.countP (fun i => decide (pat <+: s.drop i)) [k] =
          if pat <+: (c :: t) then 1 else 0 := by
        rw [List.countP_cons]
        simp [hd]
      rw [ih, hsingle, hd, hd1, occCount_cons]
      exact (Nat.add_assoc _ _ _).symm

/-- Under `noSelfOverlap`, a match of `pat` at the start of `s` excludes any
further match within the next `pat.length - 1` positions. -/
theorem window_count_one (pat : Str) (hne : pat ≠ []) (hov : noSelfOverlap pat)
    (s : Str) (hp : pat <+: s) :
    ((List.range pat.length).countP fun i => decide (pat <+: s.drop i)) = 1 := by
  obtain ⟨m, hm⟩ : ∃ m, pat.length = m + 1 :=
    ⟨pat.length - 1, by cases pat with
      | nil => exact absurd rfl hne
      | cons a l => simp⟩
  rw [hm, List.range_succ_eq_map, List.countP_cons, List.countP_map]
  have h0 : decide (pat <+: s.drop 0) = true := by simpa using hp
  have hz : (((fun i => decide (pat <+: s.drop i)) ∘ Nat.succ)).comp id = fun i => decide (pat <+: s.drop (i + 1)) := by
    funext i
    simp [Function.comp]
  have : List.countP ((fun i => decide (pat <+: s.drop i)) ∘ Nat.succ) (List.range m) = 0 := by
    rw [List.countP_eq_zero]
    intro i hi
    simp only [Function.comp, decide_eq_true_eq]
    intro hcon
    have hik : i + 1 < pat.length := by
      rw [hm]
      exact Nat.succ_lt_succ (List.mem_range.mp hi)
    -- a match at position i + 1 inside the window yields a self-overlap
    have hpat_take : pat = s.take pat.length := List.prefix_iff_eq_take.mp hp
    have hcon_take : pat = (s.drop (i + 1)).take pat.length :=
      List.prefix_iff_eq_take.mp hcon
    have hdrop : pat.drop (i + 1) = pat.take (pat.length - (i + 1)) := by
      calc pat.drop (i + 1) = (s.take pat.length).drop (i + 1) := by rw [← hpat_take]
        _ = (s.drop (i + 1)).take (pat.length - (i + 1)) := by rw [List.drop_take]
        _ = ((s.drop (i + 1)).take pat.length).take (pat.length - (i + 1)) := by
              rw [List.take_take, Nat.min_eq_left (Nat.sub_le _ _)]
        _ = pat.take (pat.length - (i + 1)) := by rw [← hcon_take]
    have : pat.drop (i + 1) <+: pat := by
      rw [hdrop]
      exact List.take_prefix _ _
    exact hov (i + 1) hik (Nat.succ_pos i) this
  rw [this, h0]
  rfl

/-- A non-overlapping left-to-right scan counts exactly the set of match
positions when the pattern cannot overlap itself. -/
theorem countSub_eq_occCount (pat : Str) (hne : pat ≠ []) (hov : noSelfOverlap pat)
    (s : Str) : countSub pat s = occCount pat s := by
  have H : ∀ n (s : Str), s.length ≤ n → countSub pat s = occCount pat s := by
    intro n
    induction n with
    | zero =>
      intro s hs
      have : s = [] := List.eq_nil_of_length_eq_zero (Nat.le_zero.mp hs)
      subst this
      rfl
    | succ n ih =>
      intro s hs
      cases s with
      | nil => rfl
      | cons c rest =>
        by_cases hp : pat <+: (c :: rest)
        · rw [countSub_cons, if_pos hp]
          have hlen1 : 1 ≤ pat.length := by
            cases pat with
            | nil => exact absurd rfl hne
            | cons a l => simp
          have hskip : (c :: rest).drop pat.length = rest.drop (pat.length - 1) := by
            obtain ⟨m, hm⟩ : ∃ m, pat.length = m + 1 :=
              ⟨pat.length - 1, by omega⟩
            rw [hm]
            simp
          have hrec : countSub pat (rest.drop (pat.length - 1)) =
              occCount pat (rest.drop (pat.length - 1)) := by
            apply ih
            have := List.length_drop (pat.length - 1) rest
            have hr : rest.length ≤ n := by simpa using hs
            omega
          rw [hrec, occCount_drop pat hne (c :: rest) pat.length,
            window_count_one pat hne hov _ hp, hskip]
        · rw [countSub_cons, if_neg hp, occCount_cons, if_neg hp, Nat.zero_add]
          exact ih rest (by simpa using hs)
  exact H s.length s le_rfl

/-! ### Matches, containment and concatenation -/

/-- The scan finds no match exactly when the pattern is not contained in the
scanned string. -/
theorem countSub_eq_zero_iff (pat : Str) (hne : pat ≠ []) (s : Str) :
    countSub pat s = 0 ↔ ¬ pat <:+: s := by
  induction s with
  | nil =>
    simp only [countSub_nil, true_iff, List.infix_nil]
    exact fun h => hne h
  | cons c rest ih =>
    by_cases hp : pat <+: (c :: rest)
    · rw [countSub_cons, if_pos hp]
      simp only [List.infix_cons_iff]
      constructor
      · intro h
        omega
      · intro h
        exact absurd (Or.inl hp) h
    · rw [countSub_cons, if_neg hp, ih, List.infix_cons_iff]
      constructor
      · intro h hcon
        rcases hcon with h1 | h1
        · exact hp h1
        · exact h h1
      · intro h h1
        exact h (Or.inr h1)

theorem one_le_countSub (pat : Str) (hne : pat ≠ []) (s : Str) (h : pat <:+: s) :
    1 ≤ countSub pat s := by
  rcases Nat.eq_zero_or_pos (countSub pat s) with h0 | h0
  · exact absurd h ((countSub_eq_zero_iff pat hne s).mp h0)
  · exact h0

/-- The pattern cannot match across the border of `xs ++ y :: ys` when the
character `y` does not occur in the pattern at all. -/
theorem not_pre_append_cons (pat xs : Str) (y : Char) (ys : Str) (hy : y ∉ pat)
    (hlen : xs.length < pat.length) : ¬ pat <+: (xs ++ y :: ys) := by
  intro hp
  have hbound : xs.length < (xs ++ y :: ys).length := by
    simp
  have heq : pat[xs.length] = (xs ++ y :: ys)[xs.length] :=
    hp.getElem hlen
  have hys : (xs ++ y :: ys)[xs.length] = y := by
    rw [List.getElem_append_right le_rfl]
    simp
  have hmem : pat[xs.length] = y := heq.trans hys
  exact hy (hmem ▸ List.getElem_mem hlen)

/-- When the first character after the border does not occur in the pattern,
the scan of a concatenation splits at the border. -/
theorem countSub_append (pat xs : Str) (y : Char) (ys : Str) (hy : y ∉ pat) :
    countSub pat (xs ++ y :: ys) = countSub pat xs + countSub pat (y :: ys) := by
  have H : ∀ n (xs : Str), xs.length ≤ n →
      countSub pat (xs ++ y :: ys) = countSub pat xs + countSub pat (y :: ys) := by
    intro n
    induction n with
    | zero =>
      intro xs hlen
      have : xs = [] := List.eq_nil_of_length_eq_zero (Nat.le_zero.mp hlen)
      subst this
      simp [countSub_nil]
    | succ n ih =>
      intro xs hlen
      cases xs with
      | nil => simp [countSub_nil]
      | cons c xt =>
        rw [List.cons_append]
        by_cases hp : pat <+: (c :: (xt ++ y :: ys))
        · have hple : pat.length ≤ (c :: xt).length := by
            by_contra hcon
            exact not_pre_append_cons pat (c :: xt) y ys hy (by omega)
              (by simpa using hp)
          have hple1 : pat.length - 1 ≤ xt.length := by
            simp at hple
            omega
          have hskip : (xt ++ y :: ys).drop (pat.length - 1) =
              xt.drop (pat.length - 1) ++ y :: ys :=
            List.drop_append_of_le_length hple1
          have hpc : pat <+: (c :: xt) := by
            have h1 : pat = ((c :: xt) ++ y :: ys).take pat.length :=
              List.prefix_iff_eq_take.mp (by simpa using hp)
            have h2 : ((c :: xt) ++ y :: ys).take pat.length =
                (c :: xt).take pat.length :=
              List.take_append_of_le_length hple
            rw [ List.prefix_iff_eq_take]
            rw [h1, h2]
            simp [List.take_take]
          have e1 : countSub pat (c :: (xt ++ y :: ys)) =
              1 + countSub pat (xt.drop (pat.length - 1) ++ y :: ys) := by
            rw [countSub_cons, if_pos hp, hskip]
          have e2 : countSub pat (xt.drop (pat.length - 1) ++ y :: ys) =
              countSub pat (xt.drop (pat.length - 1)) + countSub pat (y :: ys) := by
            apply ih
            have hxt : xt.length ≤ n := by simpa using hlen
            simp only [List.length_drop]
            omega
          have e3 : countSub pat (c :: xt) = 1 + countSub pat (xt.drop (pat.length - 1)) := by
            rw [countSub_cons, if_pos hpc]
          rw [e1, e2, e3]
          omega
        · have hpc : ¬ pat <+: (c :: xt) := by
            intro h1
            exact hp (by simpa using h1.trans ((c :: xt).prefix_append (y :: ys)))
          have e1 : countSub pat (c :: (xt ++ y :: ys)) = countSub pat (xt ++ y :: ys) := by
            rw [countSub_cons, if_neg hp]
          have e3 : countSub pat (c :: xt) = countSub pat xt := by
            rw [countSub_cons, if_neg hpc]
          rw [e1, ih xt (by simpa using hlen), e3]
  exact H xs.length xs le_rfl

/-! ## Properties of the sampler -/

theorem collectFiles_cons (rel : List String) (f : String × Str) (fs : List (String × Str))
    (acc : List SourceFile) :
    collectFiles rel (f :: fs) acc =
      collectFiles rel fs
        (if keepFile f then acc ++ [⟨rel ++ [f.1], f.2.take MAX_FILE_CHARS⟩] else acc) := rfl

theorem mem_collectFiles (rel : List String) (files : List (String × Str)) :
    ∀ (acc : List SourceFile) (g : SourceFile), g ∈ collectFiles rel files acc →
      g ∈ acc ∨ ∃ nf ∈ files, keepFile nf ∧ g = ⟨rel ++ [nf.1], nf.2.take MAX_FILE_CHARS⟩ := by
  induction files with
  | nil => intro acc g hg; exact Or.inl hg
  | cons f fs ih =>
    intro acc g hg
    rw [collectFiles_cons] at hg
    rcases ih _ g hg with h | ⟨nf, hnf, hk, he⟩
    · by_cases hkeep : keepFile f
      · rw [if_pos hkeep] at h
        rcases List.mem_append.mp h with h1 | h1
        · exact Or.inl h1
        · exact Or.inr ⟨f, List.mem_cons_self f fs, hkeep, by simpa using h1⟩
      · rw [if_neg hkeep] at h
        exact Or.inl h
    · exact Or.inr ⟨nf, List.mem_cons_of_mem f hnf, hk, he⟩

theorem mem_loadLoop (items : List (List String × List (String × Str))) :
    ∀ (acc : List SourceFile) (g : SourceFile), g ∈ loadLoop items acc →
      g ∈ acc ∨ ∃ item ∈ items, ∃ nf ∈ item.2, keepFile nf ∧
        g = ⟨item.1 ++ [nf.1], nf.2.take MAX_FILE_CHARS⟩ := by
  induction items with
  | nil => intro acc g hg; exact Or.inl hg
  | cons item rest ih =>
    intro acc g hg
    have hsplit : g ∈ collectFiles item.1 item.2 acc ∨
        g ∈ loadLoop rest (collectFiles item.1 item.2 acc) := by
      rw [loadLoop] at hg
      by_cases hstop : MAX_FILES ≤ (collectFiles item.1 item.2 acc).length
      · rw [if_pos hstop] at hg
        exact Or.inl hg
      · rw [if_neg hstop] at hg
        exact Or.inr hg
    have step : g ∈ collectFiles item.1 item.2 acc →
        g ∈ acc ∨ ∃ it ∈ item :: rest, ∃ nf ∈ it.2, keepFile nf ∧
          g = ⟨it.1 ++ [nf.1], nf.2.take MAX_FILE_CHARS⟩ := by
      intro h
      rcases mem_collectFiles item.1 item.2 acc g h with h1 | ⟨nf, hnf, hk, he⟩
      · exact Or.inl h1
      · exact Or.inr ⟨item, List.mem_cons_self item rest, nf, hnf, hk, he⟩
    rcases hsplit with h | h
    · exact step h
    · rcases ih _ g h with h1 | ⟨it, hit, nf, hnf, hk, he⟩
      · exact step h1
      · exact Or.inr ⟨it, List.mem_cons_of_mem item hit, nf, hnf, hk, he⟩

theorem walk_components (n : Nat) :
    ∀ (e : Entry), sizeOf e ≤ n → ∀ (rel : List String), ∀ item ∈ walk rel e,
      ∃ extra : List String, item.1 = rel ++ extra ∧ ∀ d ∈ extra, d ∉ IGNORED_DIRS := by
  induction n with
  | zero =>
    intro e hsz
    exfalso
    cases e <;> simp_arith at hsz
  | succ n ih =>
    intro e hsz rel item hmem
    cases e with
    | file name content => simp [walk] at hmem
    | dir name entries =>
      rw [walk] at hmem
      rcases List.mem_cons.mp hmem with h | h
      · exact ⟨[], by simp [h], by simp⟩
      · rw [List.mem_flatMap] at h
        obtain ⟨d, _, hitem⟩ := h
        have hdmem : d.1 ∈ (dirEntries entries).filter
            (fun x => !IGNORED_DIRS.contains x.name) := d.2
        have hnotig : d.1.name ∉ IGNORED_DIRS := by
          have h4 := List.of_mem_filter hdmem
          simpa using h4
        have hsz1 : sizeOf d.1 ≤ n := by
          have h2 : d.1 ∈ entries :=
            List.mem_of_mem_filter (List.mem_of_mem_filter hdmem)
          have h3 := List.sizeOf_lt_of_mem h2
          simp_arith at hsz
          omega
        obtain ⟨extra, heq, hex⟩ := ih d.1 hsz1 (rel ++ [d.1.name]) item hitem
        refine ⟨d.1.name :: extra, by rw [heq]; simp, ?_⟩
        intro x hx
        rcases List.mem_cons.mp hx with h5 | h5
        · subst h5; exact hnotig
        · exact hex x h5

theorem collectFiles_eq_as_read (rel : List String) (files : List (String × Str)) :
    ∀ acc : List SourceFile, collectFiles rel files acc = collectFilesAsRead rel files acc := by
  induction files with
  | nil => intro acc; rfl
  | cons f fs ih =>
    intro acc
    show collectFiles rel fs _ = collectFilesAsRead rel fs _
    rw [ih]
    congr 1
    by_cases h : keepFile f
    · simp [if_pos h, List.take_of_length_le (Nat.le_of_lt h.2.2)]
    · simp [if_neg h]

theorem loadLoop_eq_as_read (items : List (List String × List (String × Str))) :
    ∀ acc : List SourceFile, loadLoop items acc = loadLoopAsRead items acc := by
  induction items with
  | nil => intro acc; rfl
  | cons item rest ih =>
    intro acc
    rw [loadLoop, loadLoopAsRead, collectFiles_eq_as_read]
    by_cases h : MAX_FILES ≤ (collectFilesAsRead item.1 item.2 acc).length
    · rw [if_pos h, if_pos h]
    · rw [if_neg h, if_neg h, ih]

theorem extract_severity_counts_foldl (analyses : List Str) :
    ∀ acc : SeverityCounts,
      analyses.foldl
        (fun counts text =>
          { HIGH := counts.HIGH + countSub tagHIGH text
            MEDIUM := counts.MEDIUM + countSub tagMEDIUM text
            LOW := counts.LOW + countSub tagLOW text }) acc =
      ⟨acc.HIGH + (analyses.map (countSub tagHIGH)).sum,
       acc.MEDIUM + (analyses.map (countSub tagMEDIUM)).sum,
       acc.LOW + (analyses.map (countSub tagLOW)).sum⟩ := by
  induction analyses with
  | nil => intro acc; cases acc; simp
  | cons t ts ih =>
    intro acc
    rw [List.foldl_cons, ih]
    simp [Nat.add_assoc]

/-! ## The claims -/

/-- C2: for every severity mapping with non-negative integer entries H, M,
L, the Health Scorer returns exactly max(0, 100 − 15·H − 7·M − 3·L), and
the returned score lies in the closed interval [0, 100]. -/
theorem health_score_formula (H M L : Nat) :
    calculate_health_score ⟨H, M, L⟩ =
      max 0 (100 - 15 * (H : Int) - 7 * (M : Int) - 3 * (L : Int)) ∧
    0 ≤ calculate_health_score ⟨H, M, L⟩ ∧ calculate_health_score ⟨H, M, L⟩ ≤ 100 := by
  unfold calculate_health_score
  refine ⟨?_, le_max_right _ _, ?_⟩
  · rw [max_comm]
    congr 1
    ring
  · apply max_le _ (by norm_num)
    omega

/-- C5: the sampler returns at most `MAX_FILES` files; every returned file
has an allow-listed extension and content strictly longer than 300
characters, and no returned file lies inside a directory, at any nesting
depth, whose name is in the exclusion set. -/
theorem sampler_policy (root : Entry) :
    (load_files root).length ≤ MAX_FILES ∧
    ∀ f ∈ load_files root,
      splitext_ext (f.path.getLastD "") ∈ ALLOWED_EXT ∧
      300 < f.content.length ∧
      ∀ d ∈ f.path.dropLast, d ∉ IGNORED_DIRS := by
  refine ⟨List.length_take_le _ _, ?_⟩
  intro f hf
  have hf1 : f ∈ loadLoop (walk [] root) [] := List.mem_of_mem_take hf
  rcases mem_loadLoop _ _ f hf1 with h | ⟨item, hitem, nf, hnf, hkeep, heq⟩
  · simp at h
  · obtain ⟨extra, hcomp, hex⟩ := walk_components (sizeOf root) root le_rfl [] item hitem
    subst heq
    refine ⟨?_, ?_, ?_⟩
    · simpa [List.getLastD_concat] using hkeep.1
    · have h1 := hkeep.2.1
      have h2 := hkeep.2.2
      simp only [List.length_take]
      omega
    · simp only [List.dropLast_concat]
      intro d hd
      rw [hcomp] at hd
      exact hex d (by simpa using hd)

/-- C6: the sampler stores every included file's text unmodified — it equals
its truncation-free variant, because the inclusion test bounds the length
below the cap before the truncation — and every stored content is strictly
shorter than `MAX_FILE_CHARS`. -/
theorem sampler_no_truncation (root : Entry) :
    load_files root = load_files_as_read root ∧
    ∀ f ∈ load_files root, f.content.length < MAX_FILE_CHARS := by
  constructor
  · unfold load_files load_files_as_read
    rw [loadLoop_eq_as_read]
  · intro f hf
    have hf1 : f ∈ loadLoop (walk [] root) [] := List.mem_of_mem_take hf
    rcases mem_loadLoop _ _ f hf1 with h | ⟨item, hitem, nf, hnf, hkeep, heq⟩
    · simp at h
    · subst heq
      have h2 := hkeep.2.2
      simp only [List.length_take]
      omega

/-- C7: the aggregator returns the mapping with exactly the three keys HIGH,
MEDIUM and LOW (the three fields of `SeverityCounts`), each equal to the
total number of occurrences of the corresponding literal tag marker across
all the texts, one increment per occurrence. -/
theorem aggregator_counts_tags (analyses : List Str) :
    extract_severity_counts analyses =
      ⟨(analyses.map (occCount tagHIGH)).sum,
       (analyses.map (occCount tagMEDIUM)).sum,
       (analyses.map (occCount tagLOW)).sum⟩ := by
  have hH : countSub tagHIGH = occCount tagHIGH :=
    funext (countSub_eq_occCount tagHIGH (by decide) (by decide))
  have hM : countSub tagMEDIUM = occCount tagMEDIUM :=
    funext (countSub_eq_occCount tagMEDIUM (by decide) (by decide))
  have hL : countSub tagLOW = occCount tagLOW :=
    funext (countSub_eq_occCount tagLOW (by decide) (by decide))
  unfold extract_severity_counts
  rw [extract_severity_counts_foldl, hH, hM, hL]
  simp

theorem load_files_empty_dir : load_files (Entry.dir "repo" []) = [] := by
  simp [load_files, walk, loadLoop, collectFiles, fileEntries, dirEntries]

/-- C8: when the clone succeeds but the sampler returns no files, the
handler answers 400 with the literal body `{"error": "No readable source
files found"}`, and the response does not depend on the synthesizer oracle
in any way — the external text-generation step is never invoked. -/
theorem empty_sample_bad_request (root : Entry) (llm : Str → Option Report)
    (h : load_files root = []) :
    analyze llm root = .badRequest "No readable source files found" ∧
    ∀ llm2 : Str → Option Report, analyze llm root = analyze llm2 root := by
  constructor
  · simp [analyze, h]
  · intro llm2
    simp [analyze, h]

/-- Witness for C8: the handler at an empty repository. -/
theorem empty_sample_bad_request_witness :
    analyze (fun _ => none) (Entry.dir "repo" []) =
      .badRequest "No readable source files found" ∧
    ∀ llm2 : Str → Option Report,
      analyze (fun _ => none) (Entry.dir "repo" []) = analyze llm2 (Entry.dir "repo" []) :=
  empty_sample_bad_request (Entry.dir "repo" []) (fun _ => none) load_files_empty_dir

/-- C4: the scanner always returns a non-empty list of findings; each of the
three substring rules fires exactly when its trigger occurs in the text (the
HIGH rule on the lowercased text), all matching rules fire independently,
and when none fires the output is exactly the single placeholder LOW
finding. -/
theorem scanner_rules_total (content : Str) :
    scanFindings content ≠ [] ∧
    ("api_key".data <:+: content.map Char.toLower ↔ msgHIGH ∈ scanFindings content) ∧
    ("except:".data <:+: content ↔ msgMEDIUM ∈ scanFindings content) ∧
    ("print(".data <:+: content ↔ msgLOW ∈ scanFindings content) ∧
    (¬ "api_key".data <:+: content.map Char.toLower →
      ¬ "except:".data <:+: content → ¬ "print(".data <:+: content →
      scanFindings content = [msgNONE]) := by
  by_cases ha : "api_key".data <:+: content.map Char.toLower <;>
    by_cases he : "except:".data <:+: content <;>
    by_cases hp : "print(".data <:+: content <;>
    simp [scanFindings, ha, he, hp] <;> decide

/-- C3: a single sampled file whose content contains "api_key" in some case
but neither "except:" nor "print(", and whose relative path contains no tag
marker, yields the severity counts {HIGH: 1, MEDIUM: 0, LOW: 0} and the
score 85 after scanning, aggregating and scoring. -/
theorem single_high_file_scenario (f : SourceFile)
    (hapi : "api_key".data <:+: f.content.map Char.toLower)
    (hexc : ¬ "except:".data <:+: f.content)
    (hprn : ¬ "print(".data <:+: f.content)
    (hpath : ∀ tag ∈ [tagHIGH, tagMEDIUM, tagLOW], ¬ tag <:+: pathStr f) :
    extract_severity_counts [analyze_file f] = ⟨1, 0, 0⟩ ∧
    calculate_health_score (extract_severity_counts [analyze_file f]) = 85 := by
  have hscan : scanFindings f.content = [msgHIGH] := by
    simp [scanFindings, hapi, hexc, hprn]
  have hout : analyze_file f = pathStr f ++ ':' :: '\n' :: msgHIGH := by
    rw [analyze_file, hscan]
    rfl
  have h1 : countSub tagHIGH (analyze_file f) = 1 := by
    rw [hout, countSub_append tagHIGH (pathStr f) ':' ('\n' :: msgHIGH) (by decide),
      (countSub_eq_zero_iff tagHIGH (by decide) (pathStr f)).mpr (hpath tagHIGH (by simp))]
    decide
  have h2 : countSub tagMEDIUM (analyze_file f) = 0 := by
    rw [hout, countSub_append tagMEDIUM (pathStr f) ':' ('\n' :: msgHIGH) (by decide),
      (countSub_eq_zero_iff tagMEDIUM (by decide) (pathStr f)).mpr (hpath tagMEDIUM (by simp))]
    decide
  have h3 : countSub tagLOW (analyze_file f) = 0 := by
    rw [hout, countSub_append tagLOW (pathStr f) ':' ('\n' :: msgHIGH) (by decide),
      (countSub_eq_zero_iff tagLOW (by decide) (pathStr f)).mpr (hpath tagLOW (by simp))]
    decide
  have hc : extract_severity_counts [analyze_file f] = ⟨1, 0, 0⟩ := by
    have e : extract_severity_counts [analyze_file f] =
        ⟨0 + countSub tagHIGH (analyze_file f),
         0 + countSub tagMEDIUM (analyze_file f),
         0 + countSub tagLOW (analyze_file f)⟩ := rfl
    rw [e, h1, h2, h3]
  refine ⟨hc, by rw [hc]; decide⟩

/-- Witness for C3: the one-file repository of the spec's scenario. -/
theorem single_high_file_scenario_witness :
    extract_severity_counts
      [analyze_file ⟨["main.py"], "api_key = \"x\"".data⟩] = ⟨1, 0, 0⟩ ∧
    calculate_health_score (extract_severity_counts
      [analyze_file ⟨["main.py"], "api_key = \"x\"".data⟩]) = 85 :=
  single_high_file_scenario ⟨["main.py"], "api_key = \"x\"".data⟩
    (by decide) (by decide) (by decide) (by decide)

/-- C9: the scanner prepends the file's relative path to its findings text,
so the aggregator also counts tag markers inside paths: for a file whose
path contains one of the literal markers "[HIGH]", "[MEDIUM]" or "[LOW]",
the occurrences of that marker counted in the file's analysis text strictly
exceed the number of findings of that severity the scanner emitted. -/
theorem path_tag_inflates_count (f : SourceFile) (tag : Str)
    (htag : tag = tagHIGH ∨ tag = tagMEDIUM ∨ tag = tagLOW)
    (hpath : tag <:+: pathStr f) :
    ((scanFindings f.content).countP fun m => decide (tag <+: m)) <
      countSub tag (analyze_file f) := by
  have hne : tag ≠ [] := by
    rcases htag with h | h | h <;> subst h <;> decide
  have hcolon : ':' ∉ tag := by
    rcases htag with h | h | h <;> subst h <;> decide
  have hone : 1 ≤ countSub tag (pathStr f) := one_le_countSub tag hne _ hpath
  have happ : countSub tag (analyze_file f) =
      countSub tag (pathStr f) +
        countSub tag (':' :: '\n' :: joinLines (scanFindings f.content)) := by
    rw [analyze_file]
    exact countSub_append tag (pathStr f) ':'
      ('\n' :: joinLines (scanFindings f.content)) hcolon
  have hcase : ((scanFindings f.content).countP fun m => decide (tag <+: m)) =
      countSub tag (':' :: '\n' :: joinLines (scanFindings f.content)) := by
    rcases htag with h | h | h <;> subst h <;>
      (by_cases ha : "api_key".data <:+: f.content.map Char.toLower <;>
        by_cases he : "except:".data <:+: f.content <;>
        by_cases hp : "print(".data <:+: f.content <;>
        simp [scanFindings, ha, he, hp] <;> decide)
  omega

/-- Witness for C9: a file inside a directory literally named "[MEDIUM]". -/
theorem path_tag_inflates_count_witness :
    ((scanFindings (⟨["[MEDIUM]", "x.py"], "pass".data⟩ : SourceFile).content).countP
        fun m => decide (tagMEDIUM <+: m)) <
      countSub tagMEDIUM (analyze_file ⟨["[MEDIUM]", "x.py"], "pass".data⟩) :=
  path_tag_inflates_count ⟨["[MEDIUM]", "x.py"], "pass".data⟩ tagMEDIUM
    (Or.inr (Or.inl rfl)) (by decide)

/-- C10: the HIGH rule is case-insensitive while the MEDIUM and LOW rules
are case-sensitive: a file containing "Except:" or "PRINT(" but no case
variant of "api_key" and neither lowercase trigger yields exactly the
placeholder finding, while an uppercase "API_KEY" alone does fire the HIGH
rule. -/
theorem scanner_case_sensitivity (content : Str)
    (_hpos : "Except:".data <:+: content ∨ "PRINT(".data <:+: content)
    (ha : ¬ "api_key".data <:+: content.map Char.toLower)
    (he : ¬ "except:".data <:+: content)
    (hp : ¬ "print(".data <:+: content) :
    scanFindings content = [msgNONE] ∧
    scanFindings "API_KEY".data = [msgHIGH] := by
  refine ⟨by simp [scanFindings, ha, he, hp], by decide⟩

/-- Witness for C10: the file whose only trigger-like texts are the
wrongly-cased "Except:" and "PRINT(". -/
theorem scanner_case_sensitivity_witness :
    scanFindings "Except: PRINT(".data = [msgNONE] ∧
    scanFindings "API_KEY".data = [msgHIGH] :=
  scanner_case_sensitivity "Except: PRINT(".data
    (Or.inl (by decide)) (by decide) (by decide) (by decide)

theorem walk_demo :
    walk [] (Entry.dir "repo" [Entry.file "a.py" (List.replicate 301 'a')]) =
      [([], [("a.py", List.replicate 301 'a')])] := by
  rw [walk]
  simp [fileEntries, dirEntries, Entry.isDir]

theorem load_files_demo :
    load_files (Entry.dir "repo" [Entry.file "a.py" (List.replicate 301 'a')]) =
      [⟨["a.py"], List.replicate 301 'a'⟩] := by
  have hkeep : keepFile ("a.py", List.replicate 301 'a') := by decide
  have hcollect : collectFiles [] [("a.py", List.replicate 301 'a')] [] =
      [⟨["a.py"], List.replicate 301 'a'⟩] := by
    rw [collectFiles_cons, if_pos hkeep]
    show collectFiles [] [] _ = _
    rw [List.take_of_length_le (by simp [MAX_FILE_CHARS])]
    rfl
  have hloop : loadLoop [([], [("a.py", List.replicate 301 'a')])] [] =
      [⟨["a.py"], List.replicate 301 'a'⟩] := by
    rw [loadLoop, hcollect]
    norm_num [MAX_FILES, loadLoop]
  rw [load_files, walk_demo, hloop]
  rfl

/-- C1: the handler returns the synthesizer's parsed reply as the report,
unvalidated: every successful response is exactly the oracle's reply to the
prompt built from the locally computed facts (the computed score and counts
enter the external step only through that prompt), and there is a reply for
which the returned report's score differs from the locally computed score —
so the invariant holds only when the reply's score agrees with the computed
one. -/
theorem report_passthrough_unvalidated :
    (∀ (root : Entry) (llm : Str → Option Report) (r : Report),
      analyze llm root = .ok r →
      summarize_repo llm ((load_files root).map analyze_file)
        (calculate_health_score (extract_severity_counts
          ((load_files root).map analyze_file)))
        (extract_severity_counts ((load_files root).map analyze_file)) = some r) ∧
    (∃ (root : Entry) (llm : Str → Option Report) (r : Report),
      analyze llm root = .ok r ∧
      r.score ≠ calculate_health_score (extract_severity_counts
        ((load_files root).map analyze_file))) := by
  constructor
  · intro root llm r h
    by_cases hf : load_files root = []
    · simp [analyze, hf] at h
    · simp only [analyze, if_neg hf] at h
      cases hs : summarize_repo llm ((load_files root).map analyze_file)
          (calculate_health_score (extract_severity_counts
            ((load_files root).map analyze_file)))
          (extract_severity_counts ((load_files root).map analyze_file)) with
      | none => rw [hs] at h; simp at h
      | some rep => rw [hs] at h; simp at h; rw [h]
  · refine ⟨Entry.dir "repo" [Entry.file "a.py" (List.replicate 301 'a')],
      fun _ => some ⟨1234, [], [], []⟩, ⟨1234, [], [], []⟩, ?_, ?_⟩
    · simp only [analyze]
      rw [load_files_demo]
      rfl
    · rw [load_files_demo]
      decide

end GithubAnalyzer
